import Mathlib

/-!
Verification of the `league-live` data-fetching core (`src/utils/api.js` and the
minigame guess check in `src/pages/MinigamePage.js`) against its natural-language
specification.  JavaScript values are modelled shallowly: strings as `List Char`
or `String`, `Date.now()` timestamps as `Int` milliseconds, JS `Map` as an
association list, fallible paths as `Except`/`Option`, and network calls as
explicit outcome parameters.
-/

namespace LeagueLive

/-! ## Cache (`getFromCache` / `setCache`, src/utils/api.js lines 4-27) -/

/-- A cache entry as stored by `setCache`: the data together with the insertion
timestamp (`Date.now()`, modelled as `Int` milliseconds). -/
structure CacheEntry (α : Type) where
  data : α
  timestamp : Int
deriving Repr, DecidableEq

/-- The global `cache` is a JS `Map` from string keys to entries; modelled as an
association list (`List.lookup` finds the binding of a key). -/
def Cache (α : Type) : Type := List (String × CacheEntry α)

/-- `isExpired(timestamp, ttlMs)` is `Date.now() - timestamp > ttlMs`; the current
time `Date.now()` is passed explicitly as `now`. -/
def isExpired (timestamp ttlMs now : Int) : Bool :=
  now - timestamp > ttlMs

/-- `cache.delete(key)`: remove the binding for `key`. -/
def cacheDelete (c : Cache α) (key : String) : Cache α :=
  match c with
  | [] => []
  | p :: rest => if p.1 = key then cacheDelete rest key else p :: cacheDelete rest key

/-- `getFromCache(key, ttlMs)`: `null` results are modelled as `none`; the function
returns the result together with the possibly-updated cache (the JS function
mutates the global `Map` in place). -/
def getFromCache (c : Cache α) (key : String) (ttlMs now : Int) :
    Option α × Cache α :=
  match List.lookup key c with
  | none => (none, c)
  | some cached =>
    if isExpired cached.timestamp ttlMs now then (none, cacheDelete c key)
    else (some cached.data, c)

/-- `setCache(key, data)`: store `data` under `key` with timestamp `Date.now()`. -/
def setCache (c : Cache α) (key : String) (data : α) (now : Int) : Cache α :=
  (key, ⟨data, now⟩) :: cacheDelete c key

theorem lookup_cacheDelete_self (c : Cache α) (key : String) :
    List.lookup key (cacheDelete c key) = none := by
  induction c with
  | nil => rfl
  | cons p c ih =>
    by_cases h : p.1 = key
    · simpa [cacheDelete, h] using ih
    · have hb : (key == p.1) = false := by
        simp only [beq_eq_false_iff_ne]
        exact fun hk => h hk.symm
      simpa [cacheDelete, h, List.lookup, hb] using ih

theorem lookup_cacheDelete_other (c : Cache α) (key k : String) (hk : k ≠ key) :
    List.lookup k (cacheDelete c key) = List.lookup k c := by
  induction c with
  | nil => rfl
  | cons p c ih =>
    by_cases h : p.1 = key
    · have hb : (k == key) = false := by simpa using hk
      simp [cacheDelete, h, List.lookup, hb, ih]
    · by_cases hkp : k = p.1
      · simp [cacheDelete, h, List.lookup, hkp]
      · have hb : (k == p.1) = false := by simpa using hkp
        simp [cacheDelete, h, List.lookup, hb, ih]

theorem isExpired_true_iff (timestamp ttlMs now : Int) :
    isExpired timestamp ttlMs now = true ↔ ttlMs < now - timestamp := by
  simp [isExpired]

theorem isExpired_false_iff (timestamp ttlMs now : Int) :
    isExpired timestamp ttlMs now = false ↔ now - timestamp ≤ ttlMs := by
  simp [isExpired]

/-- C1: a read of the cache returns the stored value iff the elapsed time since the
entry's insertion timestamp is at most the TTL; when the elapsed time exceeds the
TTL the read returns absent, physically removes the entry, and leaves every other
entry untouched (lazy eviction on read, no proactive sweep). -/
theorem getFromCache_valid_iff (c : Cache α) (key : String) (ttlMs now : Int)
    (entry : CacheEntry α) (h : List.lookup key c = some entry) :
    ((getFromCache c key ttlMs now).1 = some entry.data ↔
        now - entry.timestamp ≤ ttlMs)
    ∧ (ttlMs < now - entry.timestamp →
        (getFromCache c key ttlMs now).1 = none
        ∧ List.lookup key (getFromCache c key ttlMs now).2 = none
        ∧ ∀ k, k ≠ key →
            List.lookup k (getFromCache c key ttlMs now).2 = List.lookup k c) := by
  unfold getFromCache
  rw [h]
  cases hexp : isExpired entry.timestamp ttlMs now with
  | true =>
    have hlt : ttlMs < now - entry.timestamp :=
      (isExpired_true_iff entry.timestamp ttlMs now).mp hexp
    simp only [hexp, if_true]
    refine ⟨⟨fun hcontra => by simp at hcontra,
      fun hle => absurd hle (not_le.mpr hlt)⟩, ?_⟩
    intro _
    exact ⟨trivial, lookup_cacheDelete_self c key,
      fun k hk => lookup_cacheDelete_other c key k hk⟩
  | false =>
    have hle : now - entry.timestamp ≤ ttlMs :=
      (isExpired_false_iff entry.timestamp ttlMs now).mp hexp
    simp only [hexp, Bool.false_eq_true, if_false]
    exact ⟨⟨fun _ => hle, fun _ => trivial⟩, fun hlt => absurd hle (not_le.mpr hlt)⟩

/-- Witness for C1 at a concrete cache: key `"k"` inserted at time `0` with data
`7`, read with TTL `10` at time `4` (valid) — the theorem applies with all
hypotheses discharged on concrete input. -/
theorem getFromCache_valid_iff_witness :
    ((getFromCache [("k", (⟨7, 0⟩ : CacheEntry Nat))] "k" 10 4).1 = some 7 ↔
        (4 : Int) - 0 ≤ 10)
    ∧ ((10 : Int) < 4 - 0 →
        (getFromCache [("k", (⟨7, 0⟩ : CacheEntry Nat))] "k" 10 4).1 = none
        ∧ List.lookup "k" (getFromCache [("k", (⟨7, 0⟩ : CacheEntry Nat))] "k" 10 4).2 = none
        ∧ ∀ k, k ≠ "k" →
            List.lookup k (getFromCache [("k", (⟨7, 0⟩ : CacheEntry Nat))] "k" 10 4).2
              = List.lookup k [("k", (⟨7, 0⟩ : CacheEntry Nat))]) :=
  getFromCache_valid_iff [("k", ⟨7, 0⟩)] "k" 10 4 ⟨7, 0⟩ (by rfl)

/-! ## u.gg skill-order parsing (`parseUggSkillOrder`, src/utils/api.js lines 603-710) -/

/-- A skill letter as captured by the u.gg scrape regex `([QWER])`. -/
inductive Skill : Type
  | Q
  | W
  | E
  | R
deriving DecidableEq, Repr

/-- One `skill-order-row` as extracted by the regexes in `parseUggSkillOrder`: the
letter captured from the `skill-label` div and the level numbers parsed (by
`parseInt`) from the `skill-up` divs of that row, in document order. -/
structure UggRow where
  letter : Skill
  levels : List Nat
deriving DecidableEq, Repr

/-- `skillOrder[level - 1] = skillLetter`, guarded by `level >= 1 && level <= 18`. -/
def applyLevel (arr : List (Option Skill)) (letter : Skill) (level : Nat) :
    List (Option Skill) :=
  if 1 ≤ level ∧ level ≤ 18 then arr.set (level - 1) (some letter) else arr

/-- Process one row: write its letter at each of its level positions. -/
def applyRow (arr : List (Option Skill)) (row : UggRow) : List (Option Skill) :=
  row.levels.foldl (fun a level => applyLevel a row.letter level) arr

/-- The 18-slot array (`new Array(18).fill('')`, empty string modelled as `none`)
after processing every extracted row. -/
def uggSlots (rows : List UggRow) : List (Option Skill) :=
  rows.foldl applyRow (List.replicate 18 none)

/-- `finalOrder = skillOrder.filter(skill => skill !== '')`. -/
def uggFinalOrder (rows : List UggRow) : List Skill :=
  (uggSlots rows).filterMap id

/-- `targetCounts = { Q: 5, W: 5, E: 5, R: 3 }`. -/
def targetCount : Skill → Nat
  | .Q => 5
  | .W => 5
  | .E => 5
  | .R => 3

/-- The repair step: for each letter in the fixed order Q, W, E, R, append
`targetCounts[skill] - currentCounts[skill]` copies when that is positive; the
`needed > 0` guard is captured by truncated subtraction (`replicate 0` is a no-op). -/
def uggComplete (finalOrder : List Skill) : List Skill :=
  finalOrder
    ++ List.replicate (targetCount .Q - finalOrder.count .Q) .Q
    ++ List.replicate (targetCount .W - finalOrder.count .W) .W
    ++ List.replicate (targetCount .E - finalOrder.count .E) .E
    ++ List.replicate (targetCount .R - finalOrder.count .R) .R

/-- `parseUggSkillOrder` on the extracted rows (the non-throwing path):
`completeOrder.length >= 6 ? completeOrder : []`. -/
def parseUggSkillOrder (rows : List UggRow) : List Skill :=
  let completeOrder := uggComplete (uggFinalOrder rows)
  if completeOrder.length ≥ 6 then completeOrder else []

theorem count_uggComplete (l : List Skill) (s : Skill) :
    (uggComplete l).count s = l.count s + (targetCount s - l.count s) := by
  cases s <;>
    simp [uggComplete, List.count_append, List.count_replicate, targetCount]

theorem count_uggComplete_ge (l : List Skill) (s : Skill) :
    targetCount s ≤ (uggComplete l).count s := by
  rw [count_uggComplete]
  omega

theorem length_eq_sum_counts (l : List Skill) :
    l.length = l.count .Q + l.count .W + l.count .E + l.count .R := by
  induction l with
  | nil => rfl
  | cons a l ih =>
    cases a <;> simp [List.count_cons, ih] <;> omega

theorem length_uggComplete_ge (l : List Skill) :
    18 ≤ (uggComplete l).length := by
  have hQ := count_uggComplete_ge l .Q
  have hW := count_uggComplete_ge l .W
  have hE := count_uggComplete_ge l .E
  have hR := count_uggComplete_ge l .R
  have hlen := length_eq_sum_counts (uggComplete l)
  simp only [targetCount] at hQ hW hE hR
  omega

theorem parseUggSkillOrder_eq_complete (rows : List UggRow) :
    parseUggSkillOrder rows = uggComplete (uggFinalOrder rows) := by
  unfold parseUggSkillOrder
  have h : 6 ≤ (uggComplete (uggFinalOrder rows)).length :=
    le_trans (by norm_num) (length_uggComplete_ge (uggFinalOrder rows))
  simp [h]

/-- C10: on every non-throwing run of the u.gg parse, the repair step brings each
letter's count to at least its target, so the returned sequence has length at
least 18 and is never empty; the `< 6 → []` branch is unreachable on this path
(the result is always the repaired `completeOrder`). -/
theorem parseUggSkillOrder_repair_reaches_targets (rows : List UggRow) :
    18 ≤ (parseUggSkillOrder rows).length
    ∧ parseUggSkillOrder rows = uggComplete (uggFinalOrder rows)
    ∧ parseUggSkillOrder rows ≠ []
    ∧ 5 ≤ (parseUggSkillOrder rows).count .Q
    ∧ 5 ≤ (parseUggSkillOrder rows).count .W
    ∧ 5 ≤ (parseUggSkillOrder rows).count .E
    ∧ 3 ≤ (parseUggSkillOrder rows).count .R := by
  have heq := parseUggSkillOrder_eq_complete rows
  have hlen : 18 ≤ (parseUggSkillOrder rows).length := by
    rw [heq]; exact length_uggComplete_ge _
  refine ⟨hlen, heq, ?_, ?_, ?_, ?_, ?_⟩
  · intro hnil
    rw [hnil] at hlen
    simp at hlen
  · rw [heq]; exact count_uggComplete_ge _ .Q
  · rw [heq]; exact count_uggComplete_ge _ .W
  · rw [heq]; exact count_uggComplete_ge _ .E
  · rw [heq]; exact count_uggComplete_ge _ .R

/-- C2 counterexample: an input whose extracted rows level Q at six distinct levels
(levels 1-6) yields a result with six Q entries, not exactly five — the claim's
"exactly 5 Q, 5 W, 5 E, 3 R" fails when a letter is extracted more often than its
target. -/
theorem parseUggSkillOrder_exact_counts_cex :
    (parseUggSkillOrder [⟨.Q, [1, 2, 3, 4, 5, 6]⟩]).count .Q = 6
    ∧ ¬ ((parseUggSkillOrder [⟨.Q, [1, 2, 3, 4, 5, 6]⟩]).count .Q = 5
          ∧ (parseUggSkillOrder [⟨.Q, [1, 2, 3, 4, 5, 6]⟩]).count .W = 5
          ∧ (parseUggSkillOrder [⟨.Q, [1, 2, 3, 4, 5, 6]⟩]).count .E = 5
          ∧ (parseUggSkillOrder [⟨.Q, [1, 2, 3, 4, 5, 6]⟩]).count .R = 3) := by
  decide

/-- C2 (amended): whenever no letter is extracted more often than its target count
(Q, W, E at most 5 times and R at most 3 times), the repaired result contains
exactly 5 Q, 5 W, 5 E and 3 R, and equals the extracted sequence followed by each
letter's shortfall appended in the fixed priority order Q, W, E, R. -/
theorem parseUggSkillOrder_repair_exact (rows : List UggRow)
    (hQ : (uggFinalOrder rows).count .Q ≤ 5)
    (hW : (uggFinalOrder rows).count .W ≤ 5)
    (hE : (uggFinalOrder rows).count .E ≤ 5)
    (hR : (uggFinalOrder rows).count .R ≤ 3) :
    (parseUggSkillOrder rows).count .Q = 5
    ∧ (parseUggSkillOrder rows).count .W = 5
    ∧ (parseUggSkillOrder rows).count .E = 5
    ∧ (parseUggSkillOrder rows).count .R = 3
    ∧ parseUggSkillOrder rows =
        uggFinalOrder rows
          ++ List.replicate (5 - (uggFinalOrder rows).count .Q) .Q
          ++ List.replicate (5 - (uggFinalOrder rows).count .W) .W
          ++ List.replicate (5 - (uggFinalOrder rows).count .E) .E
          ++ List.replicate (3 - (uggFinalOrder rows).count .R) .R := by
  have heq := parseUggSkillOrder_eq_complete rows
  refine ⟨?_, ?_, ?_, ?_, ?_⟩
  · rw [heq, count_uggComplete]; simp only [targetCount]; omega
  · rw [heq, count_uggComplete]; simp only [targetCount]; omega
  · rw [heq, count_uggComplete]; simp only [targetCount]; omega
  · rw [heq, count_uggComplete]; simp only [targetCount]; omega
  · rw [heq]; rfl

/-- Witness for the amended C2 at the concrete input with no extracted rows: the
result is exactly the five-per-letter (three for R) repaired sequence. -/
theorem parseUggSkillOrder_repair_exact_witness :
    (parseUggSkillOrder []).count .Q = 5
    ∧ (parseUggSkillOrder []).count .W = 5
    ∧ (parseUggSkillOrder []).count .E = 5
    ∧ (parseUggSkillOrder []).count .R = 3
    ∧ parseUggSkillOrder [] =
        uggFinalOrder []
          ++ List.replicate (5 - (uggFinalOrder []).count .Q) .Q
          ++ List.replicate (5 - (uggFinalOrder []).count .W) .W
          ++ List.replicate (5 - (uggFinalOrder []).count .E) .E
          ++ List.replicate (3 - (uggFinalOrder []).count .R) .R :=
  parseUggSkillOrder_repair_exact [] (by decide) (by decide) (by decide) (by decide)

/-! ## `fetchSkillOrder` control flow (src/utils/api.js lines 398-478) -/

/-- Outcome of the primary (LeagueOfGraphs) attempt: either the fetch threw, or it
returned HTML whose `parseSkillOrder` result is the given list. -/
inductive PrimaryOutcome : Type
  | fetchFail
  | fetched (parsed : List Skill)
deriving DecidableEq, Repr

/-- Outcome of the u.gg fallback attempt: the fetch threw; or it returned HTML but
`parseUggSkillOrder`'s matching threw internally (its own catch); or the rows were
extracted. -/
inductive SecondaryOutcome : Type
  | fetchFail
  | parseThrew
  | fetched (rows : List UggRow)
deriving DecidableEq, Repr

/-- The hardcoded `fallbackOrder` returned when the u.gg parse throws. -/
def fallbackOrder : List Skill :=
  [.Q, .E, .W, .Q, .Q, .R, .Q, .E, .Q, .E, .R, .E, .E, .W, .W, .R, .W, .W]

/-- The u.gg fallback step of `fetchSkillOrder` (lines 445-478): parse the fetched
HTML (or return `fallbackOrder` if parsing threw), cache unconditionally and
return; if the fetch itself threw, cache and return the empty result. The second
component records the value written to the cache, if any. -/
def uggStep : SecondaryOutcome → List Skill × Option (List Skill)
  | .fetchFail => ([], some [])
  | .parseThrew => (fallbackOrder, some fallbackOrder)
  | .fetched rows => (parseUggSkillOrder rows, some (parseUggSkillOrder rows))

/-- `fetchSkillOrder` control flow: serve from cache unless `forceRefresh`; try the
LeagueOfGraphs parse and cache/return it only when non-empty; otherwise fall back
to the u.gg step. Returns the result and the cache write, if any. -/
def fetchSkillOrder (cached : Option (List Skill)) (forceRefresh : Bool)
    (p : PrimaryOutcome) (s : SecondaryOutcome) : List Skill × Option (List Skill) :=
  match (if forceRefresh then none else cached) with
  | some c => (c, none)
  | none =>
    match p with
    | .fetched parsed =>
      if parsed.length > 0 then (parsed, some parsed) else uggStep s
    | .fetchFail => uggStep s

/-- C3 counterexample: when both the LeagueOfGraphs attempt and the u.gg fetch
fail, `fetchSkillOrder` caches the explicit empty result — contradicting "never
caches an explicit empty result". -/
theorem fetchSkillOrder_caches_empty_cex :
    (fetchSkillOrder none false .fetchFail .fetchFail).2 = some []
    ∧ (fetchSkillOrder none false .fetchFail .fetchFail).1 = [] := by
  decide

/-- C3 (amended): every cached skill-order value is non-empty except on the one
path where the u.gg fallback fetch itself throws; in particular an empty primary
parse is never cached (it falls through to u.gg), and every parsed or fallback
u.gg result that is cached is non-empty. -/
theorem fetchSkillOrder_cache_nonempty (cached : Option (List Skill))
    (forceRefresh : Bool) (p : PrimaryOutcome) (s : SecondaryOutcome)
    (hs : s ≠ SecondaryOutcome.fetchFail) (r : List Skill)
    (hw : (fetchSkillOrder cached forceRefresh p s).2 = some r) :
    r ≠ [] := by
  have hstep : ∀ r₀, (uggStep s).2 = some r₀ → r₀ ≠ [] := by
    intro r₀ hr₀
    cases s with
    | fetchFail => exact absurd rfl hs
    | parseThrew =>
      simp only [uggStep, Option.some.injEq] at hr₀
      rw [← hr₀]
      decide
    | fetched rows =>
      simp only [uggStep, Option.some.injEq] at hr₀
      rw [← hr₀]
      intro hnil
      have hlen : 18 ≤ (parseUggSkillOrder rows).length := by
        rw [parseUggSkillOrder_eq_complete rows]
        exact length_uggComplete_ge _
      rw [hnil] at hlen
      simp at hlen
  unfold fetchSkillOrder at hw
  cases hif : (if forceRefresh then none else cached) with
  | some c => rw [hif] at hw; simp at hw
  | none =>
    rw [hif] at hw
    cases p with
    | fetchFail => exact hstep r hw
    | fetched parsed =>
      by_cases hlen : parsed.length > 0
      · simp only [hlen, if_true, Option.some.injEq] at hw
        rw [← hw]
        intro hnil
        rw [hnil] at hlen
        simp at hlen
      · simp only [hlen, if_false] at hw
        exact hstep r hw

/-- Witness for the amended C3: on the concrete run where LeagueOfGraphs fails and
the u.gg parse throws, the cached fallback order is non-empty. -/
theorem fetchSkillOrder_cache_nonempty_witness : fallbackOrder ≠ [] :=
  fetchSkillOrder_cache_nonempty none false .fetchFail .parseThrew (by decide)
    fallbackOrder (by decide)

/-! ## Account-name splitting (`accountName.split('#')`, src/utils/api.js line 77) -/

/-- JS `String.prototype.split` with a single-character separator, on `List Char`:
splits at every occurrence of `sep`; the result is never empty (splitting the
empty string gives one empty segment, as in JS). -/
def jsSplit (sep : Char) : List Char → List (List Char)
  | [] => [[]]
  | c :: cs =>
    if c = sep then [] :: jsSplit sep cs
    else
      match jsSplit sep cs with
      | [] => [[c]]
      | seg :: rest => (c :: seg) :: rest

/-- `const [gameName, tagLine] = accountName.split('#')`: `gameName` is the first
segment, `tagLine` the second — `undefined` (modelled `none`) when the string
contains no `#`. -/
def splitAccountName (accountName : List Char) : List Char × Option (List Char) :=
  match jsSplit '#' accountName with
  | [] => ([], none)
  | [g] => (g, none)
  | g :: t :: _ => (g, some t)

/-- Modelled from the spec's words, for comparison with the code: split the
identifier into name and tag at the LAST `#` (all characters before the final `#`
form the name). -/
def splitAtLastHash (s : List Char) : List Char × Option (List Char) :=
  if '#' ∈ s then
    let tag := (s.reverse.takeWhile (fun c => c != '#')).reverse
    (s.take (s.length - tag.length - 1), some tag)
  else (s, none)

theorem jsSplit_ne_nil (sep : Char) (l : List Char) : jsSplit sep l ≠ [] := by
  cases l with
  | nil => simp [jsSplit]
  | cons c cs =>
    by_cases h : c = sep
    · simp [jsSplit, h]
    · simp only [jsSplit, h, if_false]
      cases jsSplit sep cs <;> simp

theorem jsSplit_no_sep (sep : Char) (l : List Char) (h : sep ∉ l) :
    jsSplit sep l = [l] := by
  induction l with
  | nil => rfl
  | cons c cs ih =>
    have hc : ¬ c = sep := fun hcs => h (hcs ▸ List.mem_cons_self c cs)
    have hcs : sep ∉ cs := fun hmem => h (List.mem_cons_of_mem c hmem)
    simp [jsSplit, hc, ih hcs]

theorem jsSplit_head_takeWhile (sep : Char) (l : List Char) :
    ∃ r, jsSplit sep l = l.takeWhile (fun c => c != sep) :: r := by
  induction l with
  | nil => exact ⟨[], rfl⟩
  | cons c cs ih =>
    by_cases h : c = sep
    · refine ⟨jsSplit sep cs, ?_⟩
      simp [jsSplit, h, List.takeWhile_cons]
    · obtain ⟨r, hr⟩ := ih
      refine ⟨r, ?_⟩
      have hb : (c != sep) = true := by simpa using h
      simp [jsSplit, h, hr, List.takeWhile_cons, hb]

theorem jsSplit_sep_append (sep : Char) (name rest : List Char) (h : sep ∉ name) :
    jsSplit sep (name ++ sep :: rest) = name :: jsSplit sep rest := by
  induction name with
  | nil => simp [jsSplit]
  | cons c cs ih =>
    have hc : ¬ c = sep := fun hcs => h (hcs ▸ List.mem_cons_self c cs)
    have hcs : sep ∉ cs := fun hmem => h (List.mem_cons_of_mem c hmem)
    simp only [List.cons_append, jsSplit, hc, if_false, List.append_eq, ih hcs]

/-- C5 counterexample: for the identifier `"a#b#c"` the code takes `"a"` as the
name and `"b"` as the tag (split at the FIRST `#`), while the claim's
split-at-the-last-`#` rule would give name `"a#b"` and tag `"c"`. -/
theorem splitAccountName_last_hash_cex :
    splitAccountName "a#b#c".toList = ("a".toList, some "b".toList)
    ∧ splitAtLastHash "a#b#c".toList = ("a#b".toList, some "c".toList)
    ∧ splitAccountName "a#b#c".toList ≠ splitAtLastHash "a#b#c".toList := by
  decide

/-- C5 (amended): `getLiveMatch` splits the account identifier at the FIRST `#`:
the name is everything before the first `#` and the tag is the segment between
the first and second `#` (the remainder when there is no second `#`); a string
with no `#` yields an undefined tag. -/
theorem splitAccountName_first_hash (name rest : List Char) (h : '#' ∉ name) :
    splitAccountName (name ++ '#' :: rest)
      = (name, some (rest.takeWhile (fun c => c != '#')))
    ∧ splitAccountName name = (name, none) := by
  constructor
  · obtain ⟨r, hr⟩ := jsSplit_head_takeWhile '#' rest
    simp [splitAccountName, jsSplit_sep_append '#' name rest h, hr]
  · simp [splitAccountName, jsSplit_no_sep '#' name h]

/-- Witness for the amended C5 at `"a#b#c"`: name `"a"`, tag `"b"`. -/
theorem splitAccountName_first_hash_witness :
    (splitAccountName ("a".toList ++ '#' :: "b#c".toList)
      = ("a".toList, some ("b#c".toList.takeWhile (fun c => c != '#')))
    ∧ splitAccountName "a".toList = ("a".toList, none)) :=
  splitAccountName_first_hash "a".toList "b#c".toList (by decide)

/-! ## Live game (`fetchLiveGame`, src/utils/api.js lines 72-220) -/

/-- One raw participant from the GraphQL `teamA`/`teamB` payload. -/
structure Participant where
  championId : Int
  riotUserName : String
  riotTagLine : String
  currentRole : Option String
deriving DecidableEq, Repr

/-- The `getLiveGame` payload: the two raw teams (the other scalar fields are not
used by the code under verification). -/
structure RawLiveGame where
  teamA : List Participant
  teamB : List Participant
deriving DecidableEq, Repr

/-- The failures `fetchLiveGame` can surface: the spec's typed failures (each is a
JS `Error` with a recognised message) plus the untyped `TypeError` thrown while
building the request headers. -/
inductive LiveGameFailure : Type
  | typeError
  | noActiveMatch
  | playerNotInMatch
  | upstreamError (msg : String)
deriving DecidableEq, Repr

/-- One entry of the Data Dragon champion dictionary: the object key (slug), the
display name, and the numeric `key` (as compared by `parseInt(champ.key) ===
championId`). -/
structure ChampionEntry where
  slug : String
  name : String
  key : Int
deriving DecidableEq, Repr

/-- The axios POST outcome for the live-game request: HTTP 404, another transport
failure, a GraphQL `errors` payload, or a 2xx response whose `getLiveGame` field
may be null. -/
inductive LiveGameNet : Type
  | http404
  | transportFail (msg : String)
  | gqlErrors (msg : String)
  | ok (liveGame : Option RawLiveGame)
deriving DecidableEq, Repr

/-- JS `String.prototype.toLowerCase` on the ASCII strings used here (champion
names, roles, riot names and tags): lowercase each character. -/
def jsToLower (s : String) : String := String.mk (s.data.map Char.toLower)

/-- `roleOrder = { top: 1, jungle: 2, mid: 3, adc: 4, supp: 5 }`. -/
def roleOrder (role : String) : Option Nat :=
  if role = "top" then some 1
  else if role = "jungle" then some 2
  else if role = "mid" then some 3
  else if role = "adc" then some 4
  else if role = "supp" then some 5
  else none

/-- `roleOrder[p.currentRole?.toLowerCase()] || 5`: a missing role, or a role not
in the table, falls back to priority 5. -/
def rolePriority (p : Participant) : Nat :=
  ((p.currentRole.map jsToLower).bind roleOrder).getD 5

/-- `allyTeamRaw.sort(sortByRole)`: JS `Array#sort` is a stable sort; with the
comparator `(a, b) => priority(a) - priority(b)` it is modelled by the stable
insertion sort ordered by `rolePriority`. -/
def sortByRole (team : List Participant) : List Participant :=
  List.insertionSort (fun a b => rolePriority a ≤ rolePriority b) team

/-- `getChampionInfo(championId)`: linear scan of the champion dictionary for a
matching numeric key; unresolved ids yield the synthetic `Champion{id}` name. -/
def getChampionInfo (champions : List ChampionEntry) (championId : Int) :
    String × String :=
  match champions.find? (fun c => c.key == championId) with
  | some c => (c.name, c.slug)
  | none => (s!"Champion{championId}", s!"Champion{championId}")

/-- One mapped roster entry of the assembled result. -/
structure TeamMember where
  championId : Int
  championName : String
  championKey : String
  summonerName : String
  role : Option String
deriving DecidableEq, Repr

/-- The assembled live-match result. -/
structure LiveMatch where
  myChampionId : Int
  myChampionName : String
  myChampionKey : String
  allyTeam : List TeamMember
  enemyTeam : List TeamMember
deriving DecidableEq, Repr

/-- The referer header interpolates `tagLine.toLowerCase()`: when `tagLine` is
`undefined` (no `#` in the account name) this throws a `TypeError` before any
network request is made (the headers are built outside the `try` block). -/
def buildReferer (gameName : List Char) (tagLine : Option (List Char)) :
    Except LiveGameFailure (List Char) :=
  match tagLine with
  | none => .error .typeError
  | some t =>
    .ok ("https://u.gg/lol/profile/euw1/".toList ++ gameName ++ '-'
      :: (t.map Char.toLower ++ "/live-game".toList))

/-- Map a raw participant to a roster entry. -/
def toTeamMember (champions : List ChampionEntry) (p : Participant) : TeamMember :=
  let info := getChampionInfo champions p.championId
  { championId := p.championId
    championName := info.1
    championKey := info.2
    summonerName := p.riotUserName ++ "#" ++ p.riotTagLine
    role := p.currentRole }

/-- `allPlayers.find(...)`: first participant whose name and tag match the request
case-insensitively. -/
def findCurrentPlayer (allPlayers : List Participant) (gameName tagLine : String) :
    Option Participant :=
  allPlayers.find? (fun p =>
    jsToLower p.riotUserName == jsToLower gameName
      && jsToLower p.riotTagLine == jsToLower tagLine)

/-- The body of the `try` block after a 2xx response with a non-null `getLiveGame`:
locate the requesting player, partition ally/enemy, sort both rosters by role and
map champion info.  (`teamA.includes(currentPlayer)` is reference equality in JS;
since `currentPlayer` is drawn from `teamA ++ teamB`, membership by value is the
faithful rendering.) -/
def assembleLiveMatch (champions : List ChampionEntry) (game : RawLiveGame)
    (gameName tagLine : String) : Except LiveGameFailure LiveMatch :=
  match findCurrentPlayer (game.teamA ++ game.teamB) gameName tagLine with
  | none => .error .playerNotInMatch
  | some cur =>
    let isTeamA := game.teamA.contains cur
    let allyRaw := if isTeamA then game.teamA else game.teamB
    let enemyRaw := if isTeamA then game.teamB else game.teamA
    let info := getChampionInfo champions cur.championId
    .ok { myChampionId := cur.championId
          myChampionName := info.1
          myChampionKey := info.2
          allyTeam := (sortByRole allyRaw).map (toTeamMember champions)
          enemyTeam := (sortByRole enemyRaw).map (toTeamMember champions) }

/-- `fetchLiveGame(accountName)`: serve from cache when present; split the account
name; build the headers (which throws a `TypeError` when there is no tag); then
classify the network outcome as the code's catch logic does — a GraphQL `errors`
payload or a non-404 transport failure is rethrown (`UpstreamError`), HTTP 404 and
a null `getLiveGame` give `'Not currently in game'` (`NoActiveMatch`). -/
def fetchLiveGame (cached : Option LiveMatch) (accountName : String)
    (net : LiveGameNet) (champions : List ChampionEntry) :
    Except LiveGameFailure LiveMatch :=
  match cached with
  | some r => .ok r
  | none =>
    let split := splitAccountName accountName.toList
    match buildReferer split.1 split.2 with
    | .error e => .error e
    | .ok _ =>
      match net with
      | .gqlErrors msg => .error (.upstreamError msg)
      | .http404 => .error .noActiveMatch
      | .transportFail msg => .error (.upstreamError msg)
      | .ok none => .error .noActiveMatch
      | .ok (some game) =>
        assembleLiveMatch champions game (String.mk split.1)
          (String.mk (split.2.getD []))

/-- C9: for every uncached account identifier containing no `#`, `getLiveMatch`
fails with the untyped `TypeError` raised while building the request headers (the
undefined tag is lowercased), never with any of the typed failures. -/
theorem fetchLiveGame_no_hash_typeError (accountName : String)
    (net : LiveGameNet) (champions : List ChampionEntry)
    (h : '#' ∉ accountName.toList) :
    fetchLiveGame none accountName net champions
        = .error .typeError
    ∧ fetchLiveGame none accountName net champions ≠ .error .noActiveMatch
    ∧ fetchLiveGame none accountName net champions ≠ .error .playerNotInMatch
    ∧ ∀ msg, fetchLiveGame none accountName net champions
        ≠ .error (.upstreamError msg) := by
  have hsplit : splitAccountName accountName.toList = (accountName.toList, none) := by
    simp [splitAccountName, jsSplit_no_sep '#' accountName.data h]
  have hmain : fetchLiveGame none accountName net champions = .error .typeError := by
    unfold fetchLiveGame
    rw [hsplit]
    rfl
  refine ⟨hmain, ?_, ?_, ?_⟩
  · rw [hmain]; simp
  · rw [hmain]; simp
  · intro msg; rw [hmain]; simp

/-- Witness for C9 at the concrete identifier `"Faker"` (no `#`). -/
theorem fetchLiveGame_no_hash_typeError_witness :
    fetchLiveGame none "Faker" .http404 [] = .error .typeError
    ∧ fetchLiveGame none "Faker" .http404 [] ≠ .error .noActiveMatch
    ∧ fetchLiveGame none "Faker" .http404 [] ≠ .error .playerNotInMatch
    ∧ ∀ msg, fetchLiveGame none "Faker" .http404 []
        ≠ .error (.upstreamError msg) :=
  fetchLiveGame_no_hash_typeError "Faker" .http404 [] (by decide)

/-! ## Role sorting (C4) -/

theorem rolePriority_cases (p : Participant) :
    rolePriority p = 1 ∨ rolePriority p = 2 ∨ rolePriority p = 3
      ∨ rolePriority p = 4 ∨ rolePriority p = 5 := by
  cases hc : p.currentRole with
  | none => simp [rolePriority, hc]
  | some s =>
    have hr : rolePriority p = (roleOrder (jsToLower s)).getD 5 := by
      simp [rolePriority, hc]
    rw [hr]
    unfold roleOrder
    split_ifs <;> simp

theorem rolePriority_pos (p : Participant) : 1 ≤ rolePriority p := by
  rcases rolePriority_cases p with h | h | h | h | h <;> omega

theorem mem_filter_priority {team : List Participant} {k : Nat} {b : Participant}
    (hb : b ∈ team.filter (fun q => rolePriority q == k)) : rolePriority b = k := by
  have := List.of_mem_filter hb
  simpa using this

theorem orderedInsert_bucket (a : Participant) (l₁ l₂ : List Participant)
    (h₁ : ∀ b ∈ l₁, rolePriority b < rolePriority a)
    (h₂ : ∀ b ∈ l₂, rolePriority a ≤ rolePriority b) :
    List.orderedInsert (fun x y => rolePriority x ≤ rolePriority y) a (l₁ ++ l₂)
      = l₁ ++ a :: l₂ := by
  induction l₁ with
  | nil =>
    cases l₂ with
    | nil => rfl
    | cons b t =>
      have hb := h₂ b (List.mem_cons_self b t)
      simp [List.orderedInsert, hb]
  | cons b t ih =>
    have hb := h₁ b (List.mem_cons_self b t)
    have hnot : ¬ rolePriority a ≤ rolePriority b := not_le.mpr hb
    simp only [List.cons_append, List.orderedInsert, List.append_eq]
    rw [if_neg hnot, ih (fun x hx => h₁ x (List.mem_cons_of_mem b hx))]

/-- Modelled from the claim's words, for the counterexample: a role is "known"
when it maps to an entry of the role table. -/
def knownRole (p : Participant) : Bool :=
  ((p.currentRole.map jsToLower).bind roleOrder).isSome

/-- Modelled from the claim's words, for the counterexample: every participant
with an unknown or missing role appears after all participants with a known role. -/
def unknownRolesLast (l : List Participant) : Bool :=
  (l.dropWhile knownRole).all (fun p => !knownRole p)

/-- C4 counterexample: a team consisting of an unknown-role participant followed by
a supp gets sorted to itself — the unknown-role participant stays BEFORE the supp
(both share priority 5, arrival order preserved), contradicting "unknown roles
sort after all participants with a known role, including supp". -/
theorem sortByRole_unknown_not_last_cex :
    sortByRole [⟨1, "u1", "t1", none⟩, ⟨2, "u2", "t2", some "supp"⟩]
      = [⟨1, "u1", "t1", none⟩, ⟨2, "u2", "t2", some "supp"⟩]
    ∧ knownRole ⟨2, "u2", "t2", some "supp"⟩ = true
    ∧ knownRole ⟨1, "u1", "t1", none⟩ = false
    ∧ unknownRolesLast
        (sortByRole [⟨1, "u1", "t1", none⟩, ⟨2, "u2", "t2", some "supp"⟩])
        = false := by
  decide

/-- C4 (amended): each roster is stably sorted by the fixed role priority
`top=1, jungle=2, mid=3, adc=4, supp=5`, and a participant whose role is unknown
or missing gets priority 5 — tying with supp rather than sorting strictly after
it.  Equivalently the sorted roster is the concatenation of the priority-1
through priority-5 participants, each group in arrival order. -/
theorem sortByRole_stable_buckets (team : List Participant) :
    sortByRole team
      = team.filter (fun p => rolePriority p == 1)
        ++ team.filter (fun p => rolePriority p == 2)
        ++ team.filter (fun p => rolePriority p == 3)
        ++ team.filter (fun p => rolePriority p == 4)
        ++ team.filter (fun p => rolePriority p == 5)
    ∧ (∀ p : Participant, p.currentRole = none → rolePriority p = 5) := by
  constructor
  · induction team with
    | nil => rfl
    | cons p team ih =>
      simp only [sortByRole, List.insertionSort] at ih ⊢
      rw [ih]
      rcases rolePriority_cases p with hk | hk | hk | hk | hk
      · have h₁ : ∀ b ∈ ([] : List Participant),
            rolePriority b < rolePriority p := by
          intro b hb
          cases hb
        have h₂ : ∀ b ∈ team.filter (fun q => rolePriority q == 1)
            ++ (team.filter (fun q => rolePriority q == 2)
            ++ (team.filter (fun q => rolePriority q == 3)
            ++ (team.filter (fun q => rolePriority q == 4)
            ++ (team.filter (fun q => rolePriority q == 5))))),
            rolePriority p ≤ rolePriority b := by
          intro b hb
          rw [hk]
          simp only [List.mem_append] at hb
          rcases hb with hb | hb | hb | hb | hb
          · have hpb := mem_filter_priority hb; omega
          · have hpb := mem_filter_priority hb; omega
          · have hpb := mem_filter_priority hb; omega
          · have hpb := mem_filter_priority hb; omega
          · have hpb := mem_filter_priority hb; omega
        have heq := orderedInsert_bucket p
          (([] : List Participant))
          (team.filter (fun q => rolePriority q == 1)
            ++ (team.filter (fun q => rolePriority q == 2)
            ++ (team.filter (fun q => rolePriority q == 3)
            ++ (team.filter (fun q => rolePriority q == 4)
            ++ (team.filter (fun q => rolePriority q == 5)))))) h₁ h₂
        simp only [List.append_assoc, List.nil_append, List.append_nil] at heq ⊢
        rw [heq]
        simp [List.filter_cons, hk]
      · have h₁ : ∀ b ∈ team.filter (fun q => rolePriority q == 1),
            rolePriority b < rolePriority p := by
          intro b hb
          rw [hk]
          simp only [List.mem_append] at hb
          rcases hb with hb
          · have hpb := mem_filter_priority hb; omega
        have h₂ : ∀ b ∈ team.filter (fun q => rolePriority q == 2)
            ++ (team.filter (fun q => rolePriority q == 3)
            ++ (team.filter (fun q => rolePriority q == 4)
            ++ (team.filter (fun q => rolePriority q == 5)))),
            rolePriority p ≤ rolePriority b := by
          intro b hb
          rw [hk]
          simp only [List.mem_append] at hb
          rcases hb with hb | hb | hb | hb
          · have hpb := mem_filter_priority hb; omega
          · have hpb := mem_filter_priority hb; omega
          · have hpb := mem_filter_priority hb; omega
          · have hpb := mem_filter_priority hb; omega
        have heq := orderedInsert_bucket p
          (team.filter (fun q => rolePriority q == 1))
          (team.filter (fun q => rolePriority q == 2)
            ++ (team.filter (fun q => rolePriority q == 3)
            ++ (team.filter (fun q => rolePriority q == 4)
            ++ (team.filter (fun q => rolePriority q == 5))))) h₁ h₂
        simp only [List.append_assoc, List.nil_append, List.append_nil] at heq ⊢
        rw [heq]
        simp [List.filter_cons, hk]
      · have h₁ : ∀ b ∈ team.filter (fun q => rolePriority q == 1)
            ++ (team.filter (fun q => rolePriority q == 2)),
            rolePriority b < rolePriority p := by
          intro b hb
          rw [hk]
          simp only [List.mem_append] at hb
          rcases hb with hb | hb
          · have hpb := mem_filter_priority hb; omega
          · have hpb := mem_filter_priority hb; omega
        have h₂ : ∀ b ∈ team.filter (fun q => rolePriority q == 3)
            ++ (team.filter (fun q => rolePriority q == 4)
            ++ (team.filter (fun q => rolePriority q == 5))),
            rolePriority p ≤ rolePriority b := by
          intro b hb
          rw [hk]
          simp only [List.mem_append] at hb
          rcases hb with hb | hb | hb
          · have hpb := mem_filter_priority hb; omega
          · have hpb := mem_filter_priority hb; omega
          · have hpb := mem_filter_priority hb; omega
        have heq := orderedInsert_bucket p
          (team.filter (fun q => rolePriority q == 1)
            ++ (team.filter (fun q => rolePriority q == 2)))
          (team.filter (fun q => rolePriority q == 3)
            ++ (team.filter (fun q => rolePriority q == 4)
            ++ (team.filter (fun q => rolePriority q == 5)))) h₁ h₂
        simp only [List.append_assoc, List.nil_append, List.append_nil] at heq ⊢
        rw [heq]
        simp [List.filter_cons, hk]
      · have h₁ : ∀ b ∈ team.filter (fun q => rolePriority q == 1)
            ++ (team.filter (fun q => rolePriority q == 2)
            ++ (team.filter (fun q => rolePriority q == 3))),
            rolePriority b < rolePriority p := by
          intro b hb
          rw [hk]
          simp only [List.mem_append] at hb
          rcases hb with hb | hb | hb
          · have hpb := mem_filter_priority hb; omega
          · have hpb := mem_filter_priority hb; omega
          · have hpb := mem_filter_priority hb; omega
        have h₂ : ∀ b ∈ team.filter (fun q => rolePriority q == 4)
            ++ (team.filter (fun q => rolePriority q == 5)),
            rolePriority p ≤ rolePriority b := by
          intro b hb
          rw [hk]
          simp only [List.mem_append] at hb
          rcases hb with hb | hb
          · have hpb := mem_filter_priority hb; omega
          · have hpb := mem_filter_priority hb; omega
        have heq := orderedInsert_bucket p
          (team.filter (fun q => rolePriority q == 1)
            ++ (team.filter (fun q => rolePriority q == 2)
            ++ (team.filter (fun q => rolePriority q == 3))))
          (team.filter (fun q => rolePriority q == 4)
            ++ (team.filter (fun q => rolePriority q == 5))) h₁ h₂
        simp only [List.append_assoc, List.nil_append, List.append_nil] at heq ⊢
        rw [heq]
        simp [List.filter_cons, hk]
      · have h₁ : ∀ b ∈ team.filter (fun q => rolePriority q == 1)
            ++ (team.filter (fun q => rolePriority q == 2)
            ++ (team.filter (fun q => rolePriority q == 3)
            ++ (team.filter (fun q => rolePriority q == 4)))),
            rolePriority b < rolePriority p := by
          intro b hb
          rw [hk]
          simp only [List.mem_append] at hb
          rcases hb with hb | hb | hb | hb
          · have hpb := mem_filter_priority hb; omega
          · have hpb := mem_filter_priority hb; omega
          · have hpb := mem_filter_priority hb; omega
          · have hpb := mem_filter_priority hb; omega
        have h₂ : ∀ b ∈ team.filter (fun q => rolePriority q == 5),
            rolePriority p ≤ rolePriority b := by
          intro b hb
          rw [hk]
          simp only [List.mem_append] at hb
          rcases hb with hb
          · have hpb := mem_filter_priority hb; omega
        have heq := orderedInsert_bucket p
          (team.filter (fun q => rolePriority q == 1)
            ++ (team.filter (fun q => rolePriority q == 2)
            ++ (team.filter (fun q => rolePriority q == 3)
            ++ (team.filter (fun q => rolePriority q == 4)))))
          (team.filter (fun q => rolePriority q == 5)) h₁ h₂
        simp only [List.append_assoc, List.nil_append, List.append_nil] at heq ⊢
        rw [heq]
        simp [List.filter_cons, hk]
  · intro p hp
    simp [rolePriority, hp]

/-! ## Mustache placeholder cleanup (`fetchAbilitiesFromDataDragon`,
src/utils/api.js lines 354-395)

The fallback path normalizes ability descriptions and tooltips with the global
regex replace that maps each template placeholder — two opening braces, a body of
non-closing-brace characters, two closing braces — to the literal token
`[VALUE]`. -/

/-- Helper for the placeholder regex: given the text after the two opening braces,
consume the body (characters other than a closing brace); on two closing braces
return the remainder, otherwise report that no match starts here. -/
def matchMustacheEnd : List Char → Option (List Char)
  | [] => none
  | c :: r =>
    if c = '}' then
      if r.head? = some '}' then some r.tail else none
    else matchMustacheEnd r

theorem matchMustacheEnd_len (l : List Char) :
    ∀ r, matchMustacheEnd l = some r → r.length + 2 ≤ l.length := by
  induction l with
  | nil => intro r h; simp [matchMustacheEnd] at h
  | cons c t ih =>
    intro r h
    by_cases hc : c = '}'
    · simp only [matchMustacheEnd, hc, if_true] at h
      by_cases hh : t.head? = some '}'
      · rw [if_pos hh] at h
        have hne : t ≠ [] := by
          intro he; rw [he] at hh; simp at hh
        have hr : r = t.tail := by simpa using h.symm
        subst hr
        have hlt := List.length_tail t
        have hpos : 0 < t.length := List.length_pos.mpr hne
        simp [List.length_cons]
        omega
      · rw [if_neg hh] at h; simp at h
    · simp only [matchMustacheEnd, hc, if_false] at h
      have := ih r h
      simp [List.length_cons]
      omega

/-- The global regex replace used by the fallback ability path: scan left to
right; wherever a full placeholder starts (two opening braces, a body free of
closing braces, two closing braces) emit `[VALUE]` and continue after it;
otherwise emit the current character and continue at the next position. -/
def mustacheReplace (l : List Char) : List Char :=
  match l with
  | [] => []
  | c :: rest =>
    if c = '{' ∧ rest.head? = some '{' then
      match hm : matchMustacheEnd rest.tail with
      | some r2 => '[' :: 'V' :: 'A' :: 'L' :: 'U' :: 'E' :: ']' :: mustacheReplace r2
      | none => c :: mustacheReplace rest
    else c :: mustacheReplace rest
termination_by l.length
decreasing_by
all_goals simp_wf
have h1 := matchMustacheEnd_len cs.tail r2 hm
have h2 := List.length_tail cs
omega

theorem mustacheReplace_nil : mustacheReplace [] = [] := by
  rw [mustacheReplace.eq_def]

theorem mustacheReplace_cons_other (c : Char) (rest : List Char)
    (h : ¬ (c = '{' ∧ rest.head? = some '{')) :
    mustacheReplace (c :: rest) = c :: mustacheReplace rest := by
  rw [mustacheReplace.eq_def]
  simp only []
  rw [if_neg h]

theorem matchMustacheEnd_closes (inner post : List Char) (h : '}' ∉ inner) :
    matchMustacheEnd (inner ++ '}' :: '}' :: post) = some post := by
  induction inner with
  | nil => simp [matchMustacheEnd]
  | cons c t ih =>
    have hc : ¬ c = '}' := fun hcs => h (hcs ▸ List.mem_cons_self c t)
    have ht : '}' ∉ t := fun hmem => h (List.mem_cons_of_mem c hmem)
    simp only [List.cons_append, matchMustacheEnd, hc, if_false]
    exact ih ht

theorem mustacheReplace_cons_match (rest r2 : List Char)
    (hh : rest.head? = some '{') (hm : matchMustacheEnd rest.tail = some r2) :
    mustacheReplace ('{' :: rest)
      = '[' :: 'V' :: 'A' :: 'L' :: 'U' :: 'E' :: ']' :: mustacheReplace r2 := by
  rw [mustacheReplace.eq_def]
  simp only []
  split
  next hcond =>
    split
    next r3 hm2 =>
      rw [hm] at hm2
      cases hm2
      rfl
    next hm2 =>
      rw [hm] at hm2
      cases hm2
  next hcond =>
    exact absurd ⟨by simp, hh⟩ hcond

theorem mustacheReplace_placeholder (inner post : List Char) (h : '}' ∉ inner) :
    mustacheReplace ('{' :: '{' :: (inner ++ '}' :: '}' :: post))
      = '[' :: 'V' :: 'A' :: 'L' :: 'U' :: 'E' :: ']' :: mustacheReplace post := by
  exact mustacheReplace_cons_match ('{' :: (inner ++ '}' :: '}' :: post)) post rfl
    (by simpa using matchMustacheEnd_closes inner post h)

/-- No two consecutive characters are both opening braces (so no placeholder can
begin inside or at the right edge of the list). -/
def noDoubleBrace : List Char → Bool
  | [] => true
  | [_] => true
  | a :: b :: t => !(a = '{' && b = '{') && noDoubleBrace (b :: t)

theorem noDoubleBrace_tail {c : Char} {l : List Char}
    (h : noDoubleBrace (c :: l) = true) : noDoubleBrace l = true := by
  cases l with
  | nil => rfl
  | cons b t =>
    simp only [noDoubleBrace, Bool.and_eq_true] at h
    exact h.2

theorem noDoubleBrace_head {c b : Char} {l : List Char}
    (h : noDoubleBrace (c :: b :: l) = true) : ¬(c = '{' ∧ b = '{') := by
  simp only [noDoubleBrace, Bool.and_eq_true] at h
  rcases h with ⟨h1, _⟩
  rintro ⟨hc, hb⟩
  subst hc
  subst hb
  simp at h1

theorem mustacheReplace_skip (pre rest : List Char)
    (h : noDoubleBrace (pre ++ rest.take 1) = true) :
    mustacheReplace (pre ++ rest) = pre ++ mustacheReplace rest := by
  induction pre with
  | nil => rfl
  | cons c pre2 ih =>
    have htail : noDoubleBrace (pre2 ++ rest.take 1) = true :=
      noDoubleBrace_tail (by simpa using h)
    have hcond : ¬ (c = '{' ∧ (pre2 ++ rest).head? = some '{') := by
      rintro ⟨hc, hh⟩
      cases pre2 with
      | nil =>
        cases rest with
        | nil => simp at hh
        | cons r t =>
          simp only [List.nil_append, List.head?_cons, Option.some.injEq] at hh
          exact noDoubleBrace_head (by simpa using h) ⟨hc, hh⟩
      | cons c2 t2 =>
        simp only [List.cons_append, List.head?_cons, Option.some.injEq] at hh
        exact noDoubleBrace_head (by simpa using h) ⟨hc, hh⟩
    rw [List.cons_append, mustacheReplace_cons_other c (pre2 ++ rest) hcond, ih htail,
      List.cons_append]

/-- C6: on the fallback (Data Dragon) ability path, every dynamic-value template
placeholder (two opening braces, a body without closing braces, two closing
braces) is replaced by the literal token `[VALUE]`, and the surrounding markup is
passed through unchanged: for text `pre` in which no placeholder can start, the
replacement of `pre ++ placeholder ++ post` is `pre ++ [VALUE] ++` the
replacement of `post`. -/
theorem mustacheReplace_spec (pre inner post : List Char)
    (hpre : noDoubleBrace (pre ++ ['{']) = true)
    (hinner : '}' ∉ inner) :
    mustacheReplace (pre ++ '{' :: '{' :: (inner ++ '}' :: '}' :: post))
      = pre ++ '[' :: 'V' :: 'A' :: 'L' :: 'U' :: 'E' :: ']' :: mustacheReplace post := by
  have hskip := mustacheReplace_skip pre ('{' :: '{' :: (inner ++ '}' :: '}' :: post))
    (by simpa using hpre)
  rw [hskip, mustacheReplace_placeholder inner post hinner]

/-- Witness for C6: the spec's concrete example — the input
`"Deals \x7b\x7b damage \x7d\x7d physical damage"` becomes
`"Deals [VALUE] physical damage"`. -/
theorem mustacheReplace_spec_witness :
    mustacheReplace "Deals \x7b\x7b damage \x7d\x7d physical damage".toList
      = "Deals [VALUE] physical damage".toList := by
  have h := mustacheReplace_spec "Deals ".toList " damage ".toList
    " physical damage".toList (by decide) (by decide)
  have h2 := mustacheReplace_skip " physical damage".toList [] (by decide)
  rw [List.append_nil] at h2
  rw [mustacheReplace_nil, List.append_nil] at h2
  have hsplit : "Deals \x7b\x7b damage \x7d\x7d physical damage".toList
      = "Deals ".toList
        ++ '{' :: '{' :: (" damage ".toList ++ '}' :: '}' :: " physical damage".toList) := by
    decide
  rw [hsplit, h, h2]
  decide

/-! ## YouTube search (`searchYouTubeVideos`, src/utils/api.js lines 223-281) -/

/-- One mapped video search result (only the identifying fields matter here). -/
structure VideoResult where
  videoId : String
  title : String
deriving DecidableEq, Repr

/-- The outcome of one `trySearch(apiKey)` network call: the filtered and mapped
result list on success, or a thrown error. -/
inductive TryOutcome : Type
  | success (videos : List VideoResult)
  | failure
deriving DecidableEq, Repr

/-- `searchYouTubeVideos` control flow: serve from cache if present; with neither
API key configured (a missing or empty env var is falsy in JS, modelled `none`)
return the empty list before any network access; otherwise try the primary key,
then the backup key, caching whatever was obtained (including the final empty
list when both failed).  Returns (result, number of network calls made, cache
write if any). -/
def searchYouTubeVideos (cached : Option (List VideoResult))
    (primaryKey backupKey : Option String)
    (primaryTry backupTry : TryOutcome) :
    List VideoResult × Nat × Option (List VideoResult) :=
  match cached with
  | some c => (c, 0, none)
  | none =>
    if primaryKey = none ∧ backupKey = none then ([], 0, none)
    else
      match primaryKey, primaryTry with
      | some _, .success vids => (vids, 1, some vids)
      | some _, .failure =>
        match backupKey, backupTry with
        | some _, .success vids => (vids, 2, some vids)
        | some _, .failure => ([], 2, some [])
        | none, _ => ([], 1, some [])
      | none, _ =>
        match backupKey, backupTry with
        | some _, .success vids => (vids, 1, some vids)
        | some _, .failure => ([], 1, some [])
        | none, _ => ([], 0, some [])

/-- C7: with neither the primary nor the backup credential configured, the video
search makes no network call and writes nothing to the cache, and (the cache
being empty, as it must be when no credential was ever configured) returns the
empty list. -/
theorem searchYouTubeVideos_no_credentials (cached : Option (List VideoResult))
    (pt bt : TryOutcome) :
    (searchYouTubeVideos cached none none pt bt).2.1 = 0
    ∧ (searchYouTubeVideos cached none none pt bt).2.2 = none
    ∧ (cached = none → (searchYouTubeVideos cached none none pt bt).1 = []) := by
  cases cached with
  | some c =>
    refine ⟨rfl, rfl, ?_⟩
    intro h
    cases h
  | none => exact ⟨rfl, rfl, fun _ => rfl⟩

/-- Witness for C7 on a concrete call: empty cache, no keys, both hypothetical
network outcomes failing. -/
theorem searchYouTubeVideos_no_credentials_witness :
    (searchYouTubeVideos none none none .failure .failure).2.1 = 0
    ∧ (searchYouTubeVideos none none none .failure .failure).2.2 = none
    ∧ (searchYouTubeVideos none none none .failure .failure).1 = [] :=
  ⟨(searchYouTubeVideos_no_credentials none .failure .failure).1,
    (searchYouTubeVideos_no_credentials none .failure .failure).2.1,
    (searchYouTubeVideos_no_credentials none .failure .failure).2.2 rfl⟩

/-! ## Minigame guess check (`levenshteinDistance` and `handleSubmitGuess`,
src/pages/MinigamePage.js lines 31-59 and 218-221) -/

/-- Inner loop of `levenshteinDistance`: compute the entries `j = 1 .. len1` of
row `i` from the previous row.  `diag` is the entry above-left, `left` the entry
just written, and `prevRest` holds the previous row from column `j` on. -/
def levRow (c2 : Char) : List Char → List Nat → Nat → Nat → List Nat
  | [], _, _, _ => []
  | c1 :: cs1, prevRest, diag, left =>
    let up := prevRest.headD 0
    let cur := if c2 = c1 then diag
      else min (min (diag + 1) (left + 1)) (up + 1)
    cur :: levRow c2 cs1 prevRest.tail up cur

/-- `levenshteinDistance(str1, str2)` from MinigamePage.js: the dynamic-programming
matrix built row by row — row 0 is `0 .. len1`, row `i` starts with `i`, and each
entry takes the diagonal value on a character match, otherwise one plus the
minimum of diagonal, left and upper entries (in the source's order).  The result
is the bottom-right entry. -/
def levenshteinDistance (str1 str2 : List Char) : Nat :=
  let row0 := List.range (str1.length + 1)
  let final := str2.foldl
    (fun (st : List Nat × Nat) c2 =>
      let i := st.2 + 1
      (i :: levRow c2 str1 st.1.tail (st.1.headD 0) i, i))
    (row0, 0)
  final.1.getD str1.length 0

/-- The guess check of `handleSubmitGuess` (lines 218-221): lowercase the guess
and the champion name, then accept on string equality or edit distance at most 2. -/
def guessIsCorrect (guessToCheck championName : String) : Bool :=
  let guess := jsToLower guessToCheck
  let correct := jsToLower championName
  guess == correct || decide (levenshteinDistance guess.data correct.data ≤ 2)

/-- C8: the minigame guess check accepts every guess whose edit distance to the
correct champion name, both lowercased, is at most 2. -/
theorem guessIsCorrect_of_close (guessToCheck championName : String)
    (h : levenshteinDistance (jsToLower guessToCheck).data
        (jsToLower championName).data ≤ 2) :
    guessIsCorrect guessToCheck championName = true := by
  simp only [guessIsCorrect, Bool.or_eq_true, decide_eq_true_eq]
  exact Or.inr h

/-- Witness for C8: the guess `"garren"` for the champion `"garen"` (edit distance
1) is accepted. -/
theorem guessIsCorrect_of_close_witness :
    guessIsCorrect "garren" "garen" = true :=
  guessIsCorrect_of_close "garren" "garen" (by decide)

end LeagueLive
